import Mathlib

/-!
Shallow embedding of the `dgryski/go-change` change-point detector
(`change.go`), with float64 modelled as `ℚ`.  The external Welch t-test
(`onlinestats.Welch`, a dependency whose source is not part of this
repository) is passed to `Detector.Check` as an explicit function
parameter `welch`; a guard modelled from the specification is provided
separately as `welchGuarded`.
-/

namespace Change

/-- Descriptive statistics for a block of items (source: `Stats`). -/
structure Stats where
  mean : ℚ
  variance : ℚ
  n : ℕ
  deriving DecidableEq

/-- Source: `func (s Stats) Mean() float64`. -/
def Stats.Mean (s : Stats) : ℚ := s.mean

/-- Source: `func (s Stats) Var() float64`. -/
def Stats.Var (s : Stats) : ℚ := s.variance

/-- Source: `func (s Stats) Len() int`. -/
def Stats.Len (s : Stats) : ℕ := s.n

/-- A potential change point found by `Check` (source: `ChangePoint`). -/
structure ChangePoint where
  Index : ℕ
  Difference : ℚ
  Confidence : ℚ
  Before : Stats
  After : Stats
  deriving DecidableEq

/-- Source: `const DefaultMinSampleSize = 30`. -/
def DefaultMinSampleSize : ℕ := 30

/-- Source: `Detector` struct. -/
structure Detector where
  MinSampleSize : ℕ
  MinConfidence : ℚ
  deriving DecidableEq

/-- The memory touched by `Detector.Check`: the input `window` slice and
the two freshly allocated cumulative-sum slices. -/
structure Buffers where
  window : List ℚ
  cumsum : List ℚ
  cumsumsq : List ℚ
  deriving DecidableEq

/-- Sum of the first `l` window elements (the value stored in
`cumsum[l-1]` by the accumulation loop). -/
def prefixSum (w : List ℚ) (l : ℕ) : ℚ := ((w.take l).sum)

/-- Sum of squares of the first `l` window elements (the value stored in
`cumsumsq[l-1]` by the accumulation loop). -/
def prefixSumSq (w : List ℚ) (l : ℕ) : ℚ := (((w.map fun x => x * x).take l).sum)

/-- One iteration of the accumulation loop of `Check` (source:
`for i, v := range window { sum += v; sumsq += v*v; cumsum[i] = sum;
cumsumsq[i] = sumsq }`), acting on the memory plus the running `sum` and
`sumsq`. -/
def accumStep (st : Buffers × ℚ × ℚ) (i : ℕ) : Buffers × ℚ × ℚ :=
  let v := st.1.window.getD i 0
  let sum := st.2.1 + v
  let sumsq := st.2.2 + v * v
  (⟨st.1.window, st.1.cumsum.set i sum, st.1.cumsumsq.set i sumsq⟩, sum, sumsq)

/-- Initial memory of `Check`: the window plus the two zero-filled slices
allocated by `make([]float64, n)`. -/
def accumInit (w : List ℚ) : Buffers × ℚ × ℚ :=
  (⟨w, List.replicate w.length 0, List.replicate w.length 0⟩, 0, 0)

/-- The full accumulation loop of `Check`. -/
def accum (w : List ℚ) : Buffers × ℚ × ℚ :=
  (List.range w.length).foldl accumStep (accumInit w)

/-- State of the split-search loop of `Check`: `maxsb`, `maxsbIdx` and the
`before`/`after` statistics, all starting at their Go zero values. -/
structure SplitState where
  maxsb : ℚ
  maxsbIdx : ℕ
  before : Stats
  after : Stats
  deriving DecidableEq

/-- Go zero values of the split-search loop variables. -/
def initSplitState : SplitState :=
  ⟨0, 0, ⟨0, 0, 0⟩, ⟨0, 0, 0⟩⟩

/-- One iteration of the split-search loop of `Check`, reading the
cumulative-sum slices exactly as the source does. -/
def splitStep (n : ℕ) (sum sumsq : ℚ) (cumsum cumsumsq : List ℚ)
    (st : SplitState) (l : ℕ) : SplitState :=
  let lidx := l - 1
  let n1 : ℚ := (l : ℚ)
  let mean1 := cumsum.getD lidx 0 / n1
  let n2 : ℚ := ((n - l : ℕ) : ℚ)
  let sum2 := sum - cumsum.getD lidx 0
  let mean2 := sum2 / n2
  let sb := ((n1 * n2) / (n1 + n2)) * (mean1 - mean2) * (mean1 - mean2)
  if st.maxsb < sb then
    { maxsb := sb
      maxsbIdx := l
      before := ⟨mean1,
        (cumsumsq.getD lidx 0 - (cumsum.getD lidx 0 * cumsum.getD lidx 0) / n1) / (n1 - 1), l⟩
      after := ⟨mean2,
        ((sumsq - cumsumsq.getD lidx 0) - (sum2 * sum2) / n2) / (n2 - 1), n - l⟩ }
  else st

/-- The candidate split lengths scanned by the loop
`for l := minSampleSize; l < (n - minSampleSize + 1); l++`. -/
def candidates (n m : ℕ) : List ℕ := List.range' m ((n + 1) - 2 * m)

/-- The split-search loop of `Check`, folding `splitStep` over all
candidate split lengths. -/
def splitSearch (w : List ℚ) (m : ℕ) : SplitState :=
  (candidates w.length m).foldl
    (splitStep w.length (accum w).2.1 (accum w).2.2 (accum w).1.cumsum (accum w).1.cumsumsq)
    initSplitState

/-- The effective minimum sample size of a detector (source:
`minSampleSize := d.MinSampleSize; if minSampleSize == 0 {
minSampleSize = DefaultMinSampleSize }`). -/
def effectiveMin (d : Detector) : ℕ :=
  if d.MinSampleSize = 0 then DefaultMinSampleSize else d.MinSampleSize

/-- Source: `func (d *Detector) Check(window []float64) *ChangePoint`.
The external `onlinestats.Welch` is the parameter `welch`. -/
def Detector.Check (welch : Stats → Stats → ℚ) (d : Detector)
    (window : List ℚ) : Option ChangePoint :=
  let st := splitSearch window (effectiveMin d)
  let conf : ℚ := if 0 < st.before.n then welch st.before st.after else 0
  if conf ≤ d.MinConfidence then none
  else some ⟨st.maxsbIdx, st.after.Mean - st.before.Mean, conf, st.before, st.after⟩

/-- `Check` together with the final contents of the window slice after
the call (the only writes `Check` performs go to the freshly allocated
`cumsum`/`cumsumsq` slices inside `accum`). -/
def Detector.CheckFull (welch : Stats → Stats → ℚ) (d : Detector)
    (window : List ℚ) : Option ChangePoint × List ℚ :=
  (Detector.Check welch d window, (accum window).1.window)

/-- Between-class scatter of the split at length `l`, written with the
same formula the loop computes:
`sb = ((n1*n2)/(n1+n2)) * (mean1-mean2) * (mean1-mean2)` with
`mean1 = cumsum[l-1]/n1` and `mean2 = (sum - cumsum[l-1])/n2`. -/
def sbAt (w : List ℚ) (l : ℕ) : ℚ :=
  let n1 : ℚ := (l : ℚ)
  let n2 : ℚ := ((w.length - l : ℕ) : ℚ)
  let mean1 := prefixSum w l / n1
  let mean2 := (w.sum - prefixSum w l) / n2
  ((n1 * n2) / (n1 + n2)) * (mean1 - mean2) * (mean1 - mean2)

/-- The `before` statistics written by the loop when split `l` wins. -/
def statsBefore (w : List ℚ) (l : ℕ) : Stats :=
  ⟨prefixSum w l / (l : ℚ),
   (prefixSumSq w l - (prefixSum w l * prefixSum w l) / (l : ℚ)) / ((l : ℚ) - 1),
   l⟩

/-- The `after` statistics written by the loop when split `l` wins. -/
def statsAfter (w : List ℚ) (l : ℕ) : Stats :=
  ⟨(w.sum - prefixSum w l) / ((w.length - l : ℕ) : ℚ),
   (((w.map fun x => x * x).sum - prefixSumSq w l)
      - ((w.sum - prefixSum w l) * (w.sum - prefixSum w l)) / ((w.length - l : ℕ) : ℚ))
     / (((w.length - l : ℕ) : ℚ) - 1),
   w.length - l⟩

/-- The split-state written by the loop when split `l` wins. -/
def updAt (w : List ℚ) (l : ℕ) : SplitState :=
  ⟨sbAt w l, l, statsBefore w l, statsAfter w l⟩

/-- Modelled from the spec: the guard of `SignificanceTest`
(`onlinestats.Welch`, not part of this repository): if either segment
has fewer than 2 samples, no test is performed and the confidence is
treated as 0; otherwise the underlying test `core` is consulted. -/
def welchGuarded (core : Stats → Stats → ℚ) (b a : Stats) : ℚ :=
  if b.n < 2 ∨ a.n < 2 then 0 else core b a

/-- Source: `Stream` struct. -/
structure Stream where
  windowSize : ℕ
  blockSize : ℕ
  data : List ℚ
  items : ℕ
  buffer : List ℚ
  bufidx : ℕ
  detector : Detector
  deriving DecidableEq

/-- Source: `func NewStream(windowSize int, minSample int, blockSize int,
confidence float64) *Stream`.  It performs no validation of its
arguments. -/
def NewStream (windowSize minSample blockSize : ℕ) (confidence : ℚ) : Stream :=
  ⟨windowSize, blockSize, List.replicate windowSize 0, 0,
   List.replicate blockSize 0, 0, ⟨minSample, confidence⟩⟩

/-- A second definition following the spec words, for comparison with
`NewStream`: construction surfaces structural misconfiguration (a
non-positive window or block size, or `blockSize > windowSize`) as an
explicit failure (`none`) at setup time. -/
def NewStreamCheckedSpec (windowSize minSample blockSize : ℕ)
    (confidence : ℚ) : Option Stream :=
  if windowSize = 0 ∨ blockSize = 0 ∨ windowSize < blockSize then none
  else some (NewStream windowSize minSample blockSize confidence)

/-- Source: `func (s *Stream) Push(item float64) *ChangePoint`, returning
the updated stream state together with the result. -/
def Stream.Push (welch : Stats → Stats → ℚ) (s : Stream) (item : ℚ) :
    Stream × Option ChangePoint :=
  let buffer := s.buffer.set s.bufidx item
  let bufidx := s.bufidx + 1
  let items := s.items + 1
  if bufidx < s.blockSize then
    ({ s with buffer := buffer, bufidx := bufidx, items := items }, none)
  else
    let data := s.data.drop s.blockSize ++ buffer
    ({ s with data := data, buffer := buffer, bufidx := 0, items := items },
     if items < s.windowSize then none
     else s.detector.Check welch data)

/-- The list of results of pushing `xs` in order onto the stream `s`. -/
def pushResults (welch : Stats → Stats → ℚ) (s : Stream) :
    List ℚ → List (Option ChangePoint)
  | [] => []
  | x :: xs =>
      (s.Push welch x).2 :: pushResults welch (s.Push welch x).1 xs

/-! ### Lemmas about the accumulation loop -/

lemma prefixSum_succ (w : List ℚ) (j : ℕ) (h : j < w.length) :
    prefixSum w (j + 1) = prefixSum w j + w.getD j 0 := by
  rw [prefixSum, prefixSum, List.take_succ, List.sum_append,
    List.getElem?_eq_getElem h, List.getD_eq_getElem?_getD,
    List.getElem?_eq_getElem h]
  simp

lemma prefixSumSq_succ (w : List ℚ) (j : ℕ) (h : j < w.length) :
    prefixSumSq w (j + 1) = prefixSumSq w j + w.getD j 0 * w.getD j 0 := by
  have hm : j < (w.map fun x => x * x).length := by simpa using h
  rw [prefixSumSq, prefixSumSq, List.take_succ, List.sum_append,
    List.getElem?_eq_getElem hm, List.getD_eq_getElem?_getD,
    List.getElem?_eq_getElem h]
  simp

lemma prefixSum_length (w : List ℚ) : prefixSum w w.length = w.sum := by
  rw [prefixSum, List.take_length]

lemma prefixSumSq_length (w : List ℚ) :
    prefixSumSq w w.length = (w.map fun x => x * x).sum := by
  rw [prefixSumSq, List.take_of_length_le (by simp)]

lemma accumStep_window (st : Buffers × ℚ × ℚ) (i : ℕ) :
    (accumStep st i).1.window = st.1.window := rfl

lemma accumStep_cumsum (st : Buffers × ℚ × ℚ) (i : ℕ) :
    (accumStep st i).1.cumsum = st.1.cumsum.set i (st.2.1 + st.1.window.getD i 0) := rfl

lemma accumStep_cumsumsq (st : Buffers × ℚ × ℚ) (i : ℕ) :
    (accumStep st i).1.cumsumsq
      = st.1.cumsumsq.set i (st.2.2 + st.1.window.getD i 0 * st.1.window.getD i 0) := rfl

lemma accumStep_sum (st : Buffers × ℚ × ℚ) (i : ℕ) :
    (accumStep st i).2.1 = st.2.1 + st.1.window.getD i 0 := rfl

lemma accumStep_sumsq (st : Buffers × ℚ × ℚ) (i : ℕ) :
    (accumStep st i).2.2 = st.2.2 + st.1.window.getD i 0 * st.1.window.getD i 0 := rfl

lemma accum_invariant (w : List ℚ) : ∀ j, j ≤ w.length →
    ((List.range j).foldl accumStep (accumInit w)).1.window = w ∧
    ((List.range j).foldl accumStep (accumInit w)).1.cumsum.length = w.length ∧
    ((List.range j).foldl accumStep (accumInit w)).1.cumsumsq.length = w.length ∧
    ((List.range j).foldl accumStep (accumInit w)).2.1 = prefixSum w j ∧
    ((List.range j).foldl accumStep (accumInit w)).2.2 = prefixSumSq w j ∧
    (∀ i, i < j →
      ((List.range j).foldl accumStep (accumInit w)).1.cumsum.getD i 0 = prefixSum w (i + 1)) ∧
    (∀ i, i < j →
      ((List.range j).foldl accumStep (accumInit w)).1.cumsumsq.getD i 0 = prefixSumSq w (i + 1)) := by
  intro j
  induction j with
  | zero =>
      intro _
      refine ⟨rfl, by simp [accumInit], by simp [accumInit], by simp [prefixSum, accumInit],
        by simp [prefixSumSq, accumInit], ?_, ?_⟩ <;> omega
  | succ j ih =>
      intro hj
      have hjlt : j < w.length := by omega
      obtain ⟨hw, hlen, hlensq, hsum, hsumsq, hcs, hcssq⟩ := ih (by omega)
      rw [List.range_succ, List.foldl_append, List.foldl_cons, List.foldl_nil]
      set st := (List.range j).foldl accumStep (accumInit w) with hst
      have hv : st.1.window.getD j 0 = w.getD j 0 := by rw [hw]
      have hnewsum : (accumStep st j).2.1 = prefixSum w (j + 1) := by
        rw [accumStep_sum, hv, hsum, prefixSum_succ w j hjlt]
      have hnewsumsq : (accumStep st j).2.2 = prefixSumSq w (j + 1) := by
        rw [accumStep_sumsq, hv, hsumsq, prefixSumSq_succ w j hjlt]
      refine ⟨?_, ?_, ?_, hnewsum, hnewsumsq, ?_, ?_⟩
      · rw [accumStep_window, hw]
      · rw [accumStep_cumsum, List.length_set, hlen]
      · rw [accumStep_cumsumsq, List.length_set, hlensq]
      · intro i hi
        rw [accumStep_cumsum, hv, hsum]
        rcases Nat.lt_or_ge i j with hij | hij
        · rw [List.getD_eq_getElem?_getD, List.getElem?_set_ne (by omega)]
          rw [← List.getD_eq_getElem?_getD]
          exact hcs i hij
        · have : i = j := by omega
          subst this
          rw [List.getD_eq_getElem?_getD, List.getElem?_set_self (by omega)]
          simp [prefixSum_succ w i hjlt]
      · intro i hi
        rw [accumStep_cumsumsq, hv, hsumsq]
        rcases Nat.lt_or_ge i j with hij | hij
        · rw [List.getD_eq_getElem?_getD, List.getElem?_set_ne (by omega)]
          rw [← List.getD_eq_getElem?_getD]
          exact hcssq i hij
        · have : i = j := by omega
          subst this
          rw [List.getD_eq_getElem?_getD, List.getElem?_set_self (by omega)]
          simp [prefixSumSq_succ w i hjlt]

/-- The accumulation loop never writes to the window. -/
lemma accum_window (w : List ℚ) : (accum w).1.window = w :=
  ((accum_invariant w w.length le_rfl).1)

lemma accum_sum (w : List ℚ) : (accum w).2.1 = w.sum := by
  have := (accum_invariant w w.length le_rfl).2.2.2.1
  rwa [prefixSum_length] at this

lemma accum_sumsq (w : List ℚ) : (accum w).2.2 = (w.map fun x => x * x).sum := by
  have := (accum_invariant w w.length le_rfl).2.2.2.2.1
  rwa [prefixSumSq_length] at this

lemma accum_cumsum_getD (w : List ℚ) (i : ℕ) (hi : i < w.length) :
    (accum w).1.cumsum.getD i 0 = prefixSum w (i + 1) :=
  (accum_invariant w w.length le_rfl).2.2.2.2.2.1 i hi

lemma accum_cumsumsq_getD (w : List ℚ) (i : ℕ) (hi : i < w.length) :
    (accum w).1.cumsumsq.getD i 0 = prefixSumSq w (i + 1) :=
  (accum_invariant w w.length le_rfl).2.2.2.2.2.2 i hi

/-! ### Lemmas about the split-search loop -/

lemma updAt_maxsb (w : List ℚ) (l : ℕ) : (updAt w l).maxsb = sbAt w l := rfl

lemma updAt_maxsbIdx (w : List ℚ) (l : ℕ) : (updAt w l).maxsbIdx = l := rfl

/-- On a strict-improvement scan over a strictly increasing candidate
list, the fold either leaves the state untouched (when nothing beats the
incoming `maxsb`) or ends at the earliest strict maximizer. -/
lemma foldl_argmax (w : List ℚ) (stepFn : SplitState → ℕ → SplitState) :
    ∀ L : List ℕ, L.Pairwise (· < ·) →
      (∀ st l, l ∈ L → stepFn st l = if st.maxsb < sbAt w l then updAt w l else st) →
      ∀ s : SplitState,
        (L.foldl stepFn s = s ∧ ∀ l ∈ L, sbAt w l ≤ s.maxsb) ∨
        (∃ l ∈ L, L.foldl stepFn s = updAt w l ∧ s.maxsb < sbAt w l ∧
          (∀ x ∈ L, sbAt w x ≤ sbAt w l) ∧ ∀ x ∈ L, x < l → sbAt w x < sbAt w l) := by
  intro L
  induction L with
  | nil =>
      intro _ _ s
      exact Or.inl ⟨rfl, by simp⟩
  | cons c L ih =>
      intro hL hstep s
      have hcL : ∀ x ∈ L, c < x := fun x hx => (List.pairwise_cons.mp hL).1 x hx
      have hL' : L.Pairwise (· < ·) := (List.pairwise_cons.mp hL).2
      have hstep' : ∀ st l, l ∈ L →
          stepFn st l = if st.maxsb < sbAt w l then updAt w l else st :=
        fun st l hl => hstep st l (List.mem_cons_of_mem c hl)
      rw [List.foldl_cons, hstep s c (List.mem_cons_self c L)]
      by_cases hc : s.maxsb < sbAt w c
      · rw [if_pos hc]
        rcases ih hL' hstep' (updAt w c) with ⟨heq, hall⟩ | ⟨l, hlL, heq, hlt, hmax, hfirst⟩
        · refine Or.inr ⟨c, List.mem_cons_self c L, heq, hc, ?_, ?_⟩
          · intro x hx
            rcases List.mem_cons.mp hx with hx | hx
            · subst hx; exact le_rfl
            · simpa [updAt_maxsb] using hall x hx
          · intro x hx hxc
            rcases List.mem_cons.mp hx with hx | hx
            · subst hx; exact absurd hxc (lt_irrefl _)
            · exact absurd hxc (not_lt.mpr (le_of_lt (hcL x hx)))
        · rw [updAt_maxsb] at hlt
          refine Or.inr ⟨l, List.mem_cons_of_mem c hlL, heq, lt_trans hc hlt, ?_, ?_⟩
          · intro x hx
            rcases List.mem_cons.mp hx with hx | hx
            · subst hx; exact le_of_lt hlt
            · exact hmax x hx
          · intro x hx hxl
            rcases List.mem_cons.mp hx with hx | hx
            · subst hx; exact hlt
            · exact hfirst x hx hxl
      · rw [if_neg hc]
        rcases ih hL' hstep' s with ⟨heq, hall⟩ | ⟨l, hlL, heq, hlt, hmax, hfirst⟩
        · refine Or.inl ⟨heq, ?_⟩
          intro x hx
          rcases List.mem_cons.mp hx with hx | hx
          · subst hx; exact not_lt.mp hc
          · exact hall x hx
        · refine Or.inr ⟨l, List.mem_cons_of_mem c hlL, heq, hlt, ?_, ?_⟩
          · intro x hx
            rcases List.mem_cons.mp hx with hx | hx
            · subst hx; exact le_of_lt (lt_of_le_of_lt (not_lt.mp hc) hlt)
            · exact hmax x hx
          · intro x hx hxl
            rcases List.mem_cons.mp hx with hx | hx
            · subst hx; exact lt_of_le_of_lt (not_lt.mp hc) hlt
            · exact hfirst x hx hxl

/-- Membership in the candidate range of the split-search loop. -/
lemma mem_candidates (n m l : ℕ) : l ∈ candidates n m ↔ m ≤ l ∧ l + m ≤ n := by
  rw [candidates, List.mem_range'_1]
  omega

/-- For a candidate split length, the loop body agrees with the pure
strict-improvement step built from `sbAt` and `updAt`. -/
lemma splitStep_eq_pure (w : List ℚ) (l : ℕ) (h1 : 1 ≤ l) (h2 : l ≤ w.length)
    (st : SplitState) :
    splitStep w.length (accum w).2.1 (accum w).2.2 (accum w).1.cumsum (accum w).1.cumsumsq st l
      = if st.maxsb < sbAt w l then updAt w l else st := by
  have hlidx : l - 1 < w.length := by omega
  have hcs : (accum w).1.cumsum.getD (l - 1) 0 = prefixSum w l := by
    rw [accum_cumsum_getD w (l - 1) hlidx]
    congr 1
    omega
  have hcssq : (accum w).1.cumsumsq.getD (l - 1) 0 = prefixSumSq w l := by
    rw [accum_cumsumsq_getD w (l - 1) hlidx]
    congr 1
    omega
  rw [splitStep, accum_sum, accum_sumsq, hcs, hcssq]
  rfl

/-- Master characterization of the split-search loop: either no candidate
beats the initial zero scatter and the state is untouched, or the final
state is the earliest strict maximizer of `sbAt` over the candidates. -/
lemma splitSearch_spec (w : List ℚ) (m : ℕ) (hm : 1 ≤ m) :
    (splitSearch w m = initSplitState ∧ ∀ l ∈ candidates w.length m, sbAt w l ≤ 0) ∨
    (∃ l ∈ candidates w.length m, splitSearch w m = updAt w l ∧ 0 < sbAt w l ∧
      (∀ x ∈ candidates w.length m, sbAt w x ≤ sbAt w l) ∧
      ∀ x ∈ candidates w.length m, x < l → sbAt w x < sbAt w l) := by
  have hpw : (candidates w.length m).Pairwise (· < ·) := by
    rw [candidates]
    exact List.pairwise_lt_range' m _
  have hstep : ∀ (st : SplitState) (l : ℕ), l ∈ candidates w.length m →
      splitStep w.length (accum w).2.1 (accum w).2.2 (accum w).1.cumsum
        (accum w).1.cumsumsq st l
        = if st.maxsb < sbAt w l then updAt w l else st := by
    intro st l hl
    obtain ⟨h1, h2⟩ := (mem_candidates _ _ _).mp hl
    exact splitStep_eq_pure w l (le_trans hm h1) (by omega) st
  have h := foldl_argmax w
    (splitStep w.length (accum w).2.1 (accum w).2.2 (accum w).1.cumsum (accum w).1.cumsumsq)
    (candidates w.length m) hpw hstep initSplitState
  simpa [splitSearch, initSplitState] using h

/-- The scatter of any valid split of a constant window is zero. -/
lemma sbAt_replicate (n : ℕ) (c : ℚ) (l : ℕ) (h1 : 1 ≤ l) (h2 : l < n) :
    sbAt (List.replicate n c) l = 0 := by
  have hlen : (List.replicate n c).length = n := List.length_replicate n c
  have hps : prefixSum (List.replicate n c) l = (l : ℚ) * c := by
    rw [prefixSum, List.take_replicate]
    have : min l n = l := by omega
    rw [this, List.sum_replicate, nsmul_eq_mul]
  have hsum : (List.replicate n c).sum = (n : ℚ) * c := by
    rw [List.sum_replicate, nsmul_eq_mul]
  have hl0 : ((l : ℚ)) ≠ 0 := Nat.cast_ne_zero.mpr (by omega)
  have hnl : ((n - l : ℕ) : ℚ) ≠ 0 := Nat.cast_ne_zero.mpr (by omega)
  rw [sbAt]
  simp only [hlen, hps, hsum]
  have hm1 : (l : ℚ) * c / (l : ℚ) = c := by
    rw [mul_comm, mul_div_assoc, div_self hl0, mul_one]
  have hm2 : ((n : ℚ) * c - (l : ℚ) * c) / ((n - l : ℕ) : ℚ) = c := by
    have hcast : ((n - l : ℕ) : ℚ) = (n : ℚ) - (l : ℚ) := by
      push_cast [Nat.cast_sub (by omega : l ≤ n)]
      ring
    rw [show (n : ℚ) * c - (l : ℚ) * c = c * ((n : ℚ) - (l : ℚ)) by ring, hcast,
      mul_div_assoc, div_self (hcast ▸ hnl), mul_one]
  rw [hm1, hm2]
  ring

lemma effectiveMin_pos (d : Detector) : 1 ≤ effectiveMin d := by
  rw [effectiveMin]
  split
  · rw [DefaultMinSampleSize]
    omega
  · omega

/-- Unfolded form of `Detector.Check`. -/
lemma Check_eq (welch : Stats → Stats → ℚ) (d : Detector) (w : List ℚ) :
    Detector.Check welch d w =
      if (if 0 < (splitSearch w (effectiveMin d)).before.n
          then welch (splitSearch w (effectiveMin d)).before (splitSearch w (effectiveMin d)).after
          else 0) ≤ d.MinConfidence
      then none
      else some ⟨(splitSearch w (effectiveMin d)).maxsbIdx,
        (splitSearch w (effectiveMin d)).after.Mean - (splitSearch w (effectiveMin d)).before.Mean,
        (if 0 < (splitSearch w (effectiveMin d)).before.n
         then welch (splitSearch w (effectiveMin d)).before (splitSearch w (effectiveMin d)).after
         else 0),
        (splitSearch w (effectiveMin d)).before,
        (splitSearch w (effectiveMin d)).after⟩ := rfl

/-- C1: for a window of length `n` and effective minimum sample size
`m` (`MinSampleSize`, or 30 when that is 0), whenever some candidate
split in `[m, n - m]` has positive between-class scatter, `Detector.Check`
selects as winning split the earliest candidate length that strictly
maximizes `sb = (n1*n2/(n1+n2)) * (mean1 - mean2)^2` (ties keep the
earliest because the maximum is updated only on strict improvement), and
the winning split carries the before segment `[0, l)` of size `l` and the
after segment `[l, n)` of size `n - l`. -/
theorem check_selects_earliest_strict_scatter_max
    (welch : Stats → Stats → ℚ) (d : Detector) (w : List ℚ)
    (hpos : ∃ l ∈ candidates w.length (effectiveMin d), 0 < sbAt w l) :
    (splitSearch w (effectiveMin d)).maxsbIdx ∈ candidates w.length (effectiveMin d) ∧
    (splitSearch w (effectiveMin d)).maxsb
      = sbAt w (splitSearch w (effectiveMin d)).maxsbIdx ∧
    (∀ l ∈ candidates w.length (effectiveMin d),
      sbAt w l ≤ sbAt w (splitSearch w (effectiveMin d)).maxsbIdx) ∧
    (∀ l ∈ candidates w.length (effectiveMin d),
      l < (splitSearch w (effectiveMin d)).maxsbIdx →
      sbAt w l < sbAt w (splitSearch w (effectiveMin d)).maxsbIdx) ∧
    (splitSearch w (effectiveMin d)).before
      = statsBefore w (splitSearch w (effectiveMin d)).maxsbIdx ∧
    (splitSearch w (effectiveMin d)).after
      = statsAfter w (splitSearch w (effectiveMin d)).maxsbIdx ∧
    ∀ cp, Detector.Check welch d w = some cp →
      cp.Index = (splitSearch w (effectiveMin d)).maxsbIdx := by
  rcases splitSearch_spec w (effectiveMin d) (effectiveMin_pos d) with
    ⟨_, hall⟩ | ⟨l, hl, heq, _, hmax, hfirst⟩
  · obtain ⟨l, hl, hsb⟩ := hpos
    exact absurd (hall l hl) (not_le.mpr hsb)
  · rw [heq]
    rw [updAt_maxsbIdx]
    refine ⟨hl, rfl, hmax, hfirst, rfl, rfl, ?_⟩
    intro cp hcp
    have hlpos : 0 < (updAt w l).before.n := by
      show 0 < l
      have := (mem_candidates w.length (effectiveMin d) l).mp hl
      have := effectiveMin_pos d
      omega
    rw [Check_eq, heq, if_pos hlpos] at hcp
    split at hcp
    · exact Option.noConfusion hcp
    · rw [Option.some_inj] at hcp
      rw [← hcp]
      rfl

/-- Closed witness for `check_selects_earliest_strict_scatter_max` at the
window `[1, 1, 1, 2]` with `MinSampleSize = 1`. -/
theorem check_selects_earliest_strict_scatter_max_witness :
    (∃ l ∈ candidates ([(1 : ℚ), 1, 1, 2]).length (effectiveMin ⟨1, 0⟩), 0 < sbAt [(1 : ℚ), 1, 1, 2] l) ∧
    ((splitSearch [(1 : ℚ), 1, 1, 2] (effectiveMin ⟨1, 0⟩)).maxsbIdx
        ∈ candidates ([(1 : ℚ), 1, 1, 2]).length (effectiveMin ⟨1, 0⟩) ∧
      (splitSearch [(1 : ℚ), 1, 1, 2] (effectiveMin ⟨1, 0⟩)).maxsb
        = sbAt [(1 : ℚ), 1, 1, 2] (splitSearch [(1 : ℚ), 1, 1, 2] (effectiveMin ⟨1, 0⟩)).maxsbIdx ∧
      (∀ l ∈ candidates ([(1 : ℚ), 1, 1, 2]).length (effectiveMin ⟨1, 0⟩),
        sbAt [(1 : ℚ), 1, 1, 2] l
          ≤ sbAt [(1 : ℚ), 1, 1, 2] (splitSearch [(1 : ℚ), 1, 1, 2] (effectiveMin ⟨1, 0⟩)).maxsbIdx) ∧
      (∀ l ∈ candidates ([(1 : ℚ), 1, 1, 2]).length (effectiveMin ⟨1, 0⟩),
        l < (splitSearch [(1 : ℚ), 1, 1, 2] (effectiveMin ⟨1, 0⟩)).maxsbIdx →
        sbAt [(1 : ℚ), 1, 1, 2] l
          < sbAt [(1 : ℚ), 1, 1, 2] (splitSearch [(1 : ℚ), 1, 1, 2] (effectiveMin ⟨1, 0⟩)).maxsbIdx) ∧
      (splitSearch [(1 : ℚ), 1, 1, 2] (effectiveMin ⟨1, 0⟩)).before
        = statsBefore [(1 : ℚ), 1, 1, 2] (splitSearch [(1 : ℚ), 1, 1, 2] (effectiveMin ⟨1, 0⟩)).maxsbIdx ∧
      (splitSearch [(1 : ℚ), 1, 1, 2] (effectiveMin ⟨1, 0⟩)).after
        = statsAfter [(1 : ℚ), 1, 1, 2] (splitSearch [(1 : ℚ), 1, 1, 2] (effectiveMin ⟨1, 0⟩)).maxsbIdx ∧
      ∀ cp, Detector.Check (fun _ _ => 1) ⟨1, 0⟩ [(1 : ℚ), 1, 1, 2] = some cp →
        cp.Index = (splitSearch [(1 : ℚ), 1, 1, 2] (effectiveMin ⟨1, 0⟩)).maxsbIdx) :=
  ⟨⟨3, by decide, by norm_num [sbAt, prefixSum]⟩,
   check_selects_earliest_strict_scatter_max (fun _ _ => 1) ⟨1, 0⟩ [(1 : ℚ), 1, 1, 2]
     ⟨3, by decide, by norm_num [sbAt, prefixSum]⟩⟩

/-- C3: on a constant-valued window every candidate split has zero
scatter, so the split-search state is never updated (`before.n = 0`
signals that no split was found) and `Detector.Check` returns no change
point, for every `MinSampleSize` and every nonnegative `MinConfidence`. -/
theorem check_constant_window_none (welch : Stats → Stats → ℚ) (d : Detector)
    (n : ℕ) (c : ℚ) (h0 : 0 ≤ d.MinConfidence) :
    (splitSearch (List.replicate n c) (effectiveMin d)).before.n = 0 ∧
    Detector.Check welch d (List.replicate n c) = none := by
  have hinit : splitSearch (List.replicate n c) (effectiveMin d) = initSplitState := by
    rcases splitSearch_spec (List.replicate n c) (effectiveMin d) (effectiveMin_pos d) with
      ⟨heq, _⟩ | ⟨l, hl, _, hsb, _, _⟩
    · exact heq
    · obtain ⟨h1, h2⟩ := (mem_candidates _ _ _).mp hl
      rw [List.length_replicate] at h2
      have hz : sbAt (List.replicate n c) l = 0 :=
        sbAt_replicate n c l (le_trans (effectiveMin_pos d) h1)
          (by have := effectiveMin_pos d; omega)
      rw [hz] at hsb
      exact absurd hsb (lt_irrefl 0)
  have hconf : (if 0 < initSplitState.before.n
      then welch initSplitState.before initSplitState.after else 0) = 0 := rfl
  refine ⟨by rw [hinit]; rfl, ?_⟩
  rw [Check_eq, hinit, hconf, if_pos h0]

/-- Closed witness for `check_constant_window_none` on the constant
window of three sevens. -/
theorem check_constant_window_none_witness :
    (0 : ℚ) ≤ (Detector.mk 1 0).MinConfidence ∧
    ((splitSearch (List.replicate 3 (7 : ℚ)) (effectiveMin ⟨1, 0⟩)).before.n = 0 ∧
      Detector.Check (fun _ _ => 1) ⟨1, 0⟩ (List.replicate 3 (7 : ℚ)) = none) :=
  ⟨le_refl 0, check_constant_window_none (fun _ _ => 1) ⟨1, 0⟩ 3 7 (le_refl 0)⟩

/-- C5: when the window is shorter than twice the effective minimum
sample size the candidate range of `Detector.Check` is empty and the
result is `none`; the call is total, even on an empty window. -/
theorem check_short_window_none (welch : Stats → Stats → ℚ) (d : Detector)
    (w : List ℚ) (h : w.length < 2 * effectiveMin d) (h0 : 0 ≤ d.MinConfidence) :
    candidates w.length (effectiveMin d) = [] ∧ Detector.Check welch d w = none := by
  have hcand : candidates w.length (effectiveMin d) = [] := by
    rw [candidates]
    have hz : (w.length + 1) - 2 * effectiveMin d = 0 := by omega
    rw [hz]
    rfl
  have hinit : splitSearch w (effectiveMin d) = initSplitState := by
    rw [splitSearch, hcand, List.foldl_nil]
  have hconf : (if 0 < initSplitState.before.n
      then welch initSplitState.before initSplitState.after else 0) = 0 := rfl
  exact ⟨hcand, by rw [Check_eq, hinit, hconf, if_pos h0]⟩

/-- Closed witness for `check_short_window_none` on the empty window with
`MinSampleSize = 5`. -/
theorem check_short_window_none_witness :
    (([] : List ℚ).length < 2 * effectiveMin ⟨5, 0⟩ ∧
      (0 : ℚ) ≤ (Detector.mk 5 0).MinConfidence) ∧
    (candidates ([] : List ℚ).length (effectiveMin ⟨5, 0⟩) = [] ∧
      Detector.Check (fun _ _ => 0) ⟨5, 0⟩ ([] : List ℚ) = none) :=
  ⟨⟨by decide, le_refl 0⟩,
   check_short_window_none (fun _ _ => 0) ⟨5, 0⟩ [] (by decide) (le_refl 0)⟩

/-- C4: with `MinConfidence` in its documented nonnegative domain,
`Detector.Check` returns a change point exactly when a winning split
exists (some candidate has positive scatter) and the computed confidence
strictly exceeds `MinConfidence`; the returned change point carries the
winning split length as its index (which is a valid window index),
`after.mean - before.mean` as its difference, and the computed confidence;
otherwise it returns `none`. -/
theorem check_some_iff_confidence (welch : Stats → Stats → ℚ) (d : Detector)
    (w : List ℚ) (h0 : 0 ≤ d.MinConfidence) :
    ((Detector.Check welch d w).isSome ↔
      ((∃ l ∈ candidates w.length (effectiveMin d), 0 < sbAt w l) ∧
        d.MinConfidence
          < welch (splitSearch w (effectiveMin d)).before
              (splitSearch w (effectiveMin d)).after)) ∧
    ∀ cp, Detector.Check welch d w = some cp →
      cp.Index = (splitSearch w (effectiveMin d)).maxsbIdx ∧
      cp.Index < w.length ∧
      cp.Difference
        = (splitSearch w (effectiveMin d)).after.mean
            - (splitSearch w (effectiveMin d)).before.mean ∧
      cp.Confidence
        = welch (splitSearch w (effectiveMin d)).before
            (splitSearch w (effectiveMin d)).after ∧
      cp.Before = (splitSearch w (effectiveMin d)).before ∧
      cp.After = (splitSearch w (effectiveMin d)).after := by
  rcases splitSearch_spec w (effectiveMin d) (effectiveMin_pos d) with
    ⟨heq, hall⟩ | ⟨l, hl, heq, hsb, hmax, hfirst⟩
  · have hconf : (if 0 < initSplitState.before.n
        then welch initSplitState.before initSplitState.after else 0) = 0 := rfl
    have hnone : Detector.Check welch d w = none := by
      rw [Check_eq, heq, hconf, if_pos h0]
    constructor
    · rw [hnone]
      simp only [Option.isSome_none, Bool.false_eq_true, false_iff]
      rintro ⟨⟨l, hl, hsb⟩, -⟩
      exact absurd (hall l hl) (not_le.mpr hsb)
    · intro cp hcp
      rw [hnone] at hcp
      exact Option.noConfusion hcp
  · obtain ⟨hm1, hm2⟩ := (mem_candidates _ _ _).mp hl
    have hbn : 0 < (updAt w l).before.n := by
      show 0 < l
      have := effectiveMin_pos d
      omega
    have hck : Detector.Check welch d w
        = if welch (updAt w l).before (updAt w l).after ≤ d.MinConfidence then none
          else some ⟨(updAt w l).maxsbIdx,
            (updAt w l).after.Mean - (updAt w l).before.Mean,
            welch (updAt w l).before (updAt w l).after,
            (updAt w l).before, (updAt w l).after⟩ := by
      rw [Check_eq, heq, if_pos hbn]
    constructor
    · rw [heq, hck]
      by_cases hc : welch (updAt w l).before (updAt w l).after ≤ d.MinConfidence
      · rw [if_pos hc]
        simp only [Option.isSome_none, Bool.false_eq_true, false_iff]
        rintro ⟨-, hlt⟩
        exact absurd hlt (not_lt.mpr hc)
      · rw [if_neg hc]
        simp only [Option.isSome_some, true_iff]
        exact ⟨⟨l, hl, hsb⟩, not_le.mp hc⟩
    · intro cp hcp
      rw [hck] at hcp
      split at hcp
      · exact Option.noConfusion hcp
      · rw [Option.some_inj] at hcp
        rw [heq, ← hcp]
        refine ⟨rfl, ?_, rfl, rfl, rfl, rfl⟩
        show l < w.length
        have := effectiveMin_pos d
        omega

/-- Closed witness for `check_some_iff_confidence` at the window
`[0, 0, 5, 5]` with `MinSampleSize = 2` and `MinConfidence = 1/2`. -/
theorem check_some_iff_confidence_witness :
    (0 : ℚ) ≤ (Detector.mk 2 (1 / 2)).MinConfidence ∧
    (((Detector.Check (fun _ _ => 1) ⟨2, 1 / 2⟩ [(0 : ℚ), 0, 5, 5]).isSome ↔
      ((∃ l ∈ candidates ([(0 : ℚ), 0, 5, 5]).length (effectiveMin ⟨2, 1 / 2⟩),
          0 < sbAt [(0 : ℚ), 0, 5, 5] l) ∧
        (Detector.mk 2 (1 / 2)).MinConfidence
          < (fun _ _ => (1 : ℚ))
              (splitSearch [(0 : ℚ), 0, 5, 5] (effectiveMin ⟨2, 1 / 2⟩)).before
              (splitSearch [(0 : ℚ), 0, 5, 5] (effectiveMin ⟨2, 1 / 2⟩)).after)) ∧
    ∀ cp, Detector.Check (fun _ _ => 1) ⟨2, 1 / 2⟩ [(0 : ℚ), 0, 5, 5] = some cp →
      cp.Index = (splitSearch [(0 : ℚ), 0, 5, 5] (effectiveMin ⟨2, 1 / 2⟩)).maxsbIdx ∧
      cp.Index < ([(0 : ℚ), 0, 5, 5]).length ∧
      cp.Difference
        = (splitSearch [(0 : ℚ), 0, 5, 5] (effectiveMin ⟨2, 1 / 2⟩)).after.mean
            - (splitSearch [(0 : ℚ), 0, 5, 5] (effectiveMin ⟨2, 1 / 2⟩)).before.mean ∧
      cp.Confidence
        = (fun _ _ => (1 : ℚ))
            (splitSearch [(0 : ℚ), 0, 5, 5] (effectiveMin ⟨2, 1 / 2⟩)).before
            (splitSearch [(0 : ℚ), 0, 5, 5] (effectiveMin ⟨2, 1 / 2⟩)).after ∧
      cp.Before = (splitSearch [(0 : ℚ), 0, 5, 5] (effectiveMin ⟨2, 1 / 2⟩)).before ∧
      cp.After = (splitSearch [(0 : ℚ), 0, 5, 5] (effectiveMin ⟨2, 1 / 2⟩)).after) :=
  ⟨by norm_num,
   check_some_iff_confidence (fun _ _ => 1) ⟨2, 1 / 2⟩ [(0 : ℚ), 0, 5, 5] (by norm_num)⟩

/-! ### The step window `a^k ++ b^j` -/

lemma length_run (a b : ℚ) (k j : ℕ) :
    (List.replicate k a ++ List.replicate j b).length = k + j := by
  simp

lemma sum_run (a b : ℚ) (k j : ℕ) :
    (List.replicate k a ++ List.replicate j b).sum = (k : ℚ) * a + (j : ℚ) * b := by
  rw [List.sum_append, List.sum_replicate, List.sum_replicate, nsmul_eq_mul, nsmul_eq_mul]

lemma prefixSum_run_le (a b : ℚ) (k j l : ℕ) (h : l ≤ k) :
    prefixSum (List.replicate k a ++ List.replicate j b) l = (l : ℚ) * a := by
  rw [prefixSum, List.take_append_eq_append_take]
  have h1 : l - (List.replicate k a).length = 0 := by simp; omega
  rw [h1, List.take_replicate, List.take_zero]
  have h2 : min l k = l := by omega
  rw [h2, List.append_nil, List.sum_replicate, nsmul_eq_mul]

lemma prefixSum_run_ge (a b : ℚ) (k j l : ℕ) (h : k ≤ l) (h2 : l ≤ k + j) :
    prefixSum (List.replicate k a ++ List.replicate j b) l
      = (k : ℚ) * a + ((l - k : ℕ) : ℚ) * b := by
  rw [prefixSum, List.take_append_eq_append_take, List.sum_append,
    List.take_of_length_le (by simp; omega), List.take_replicate, List.sum_replicate,
    List.sum_replicate, nsmul_eq_mul, nsmul_eq_mul]
  have hmin : min (l - (List.replicate k a).length) j = l - k := by simp; omega
  rw [hmin]

lemma sbAt_run_left (a b : ℚ) (k j l : ℕ) (h1 : 1 ≤ l) (hlk : l ≤ k) (hj : 1 ≤ j) :
    sbAt (List.replicate k a ++ List.replicate j b) l
      = ((j : ℚ) * j * ((a - b) * (a - b))) * l / (((k : ℚ) + j) * ((k : ℚ) + j - l)) := by
  have hL : (0 : ℚ) < (l : ℚ) := by exact_mod_cast h1
  have hJ : (0 : ℚ) < (j : ℚ) := by exact_mod_cast hj
  have hK : (0 : ℚ) ≤ (k : ℚ) := by positivity
  have hKL : (l : ℚ) ≤ (k : ℚ) := by exact_mod_cast hlk
  have hcast : (((k + j) - l : ℕ) : ℚ) = (k : ℚ) + j - l := by
    push_cast [Nat.cast_sub (by omega : l ≤ k + j)]
    ring
  have hNL : (0 : ℚ) < (k : ℚ) + j - l := by linarith
  have hN : (0 : ℚ) < (k : ℚ) + j := by linarith
  rw [sbAt]
  simp only [length_run, hcast, sum_run, prefixSum_run_le a b k j l hlk]
  have hiden : (l : ℚ) + ((k : ℚ) + j - l) = (k : ℚ) + j := by ring
  rw [hiden]
  field_simp
  ring

lemma sbAt_run_right (a b : ℚ) (k j l : ℕ) (hk : 1 ≤ k) (hkl : k ≤ l) (hln : l < k + j) :
    sbAt (List.replicate k a ++ List.replicate j b) l
      = ((k : ℚ) * k * ((a - b) * (a - b))) * ((k : ℚ) + j - l) / (((k : ℚ) + j) * l) := by
  have hK : (0 : ℚ) < (k : ℚ) := by exact_mod_cast hk
  have hL : (0 : ℚ) < (l : ℚ) := by exact_mod_cast (by omega : 1 ≤ l)
  have hKL : (k : ℚ) ≤ (l : ℚ) := by exact_mod_cast hkl
  have hLN : (l : ℚ) < (k : ℚ) + j := by exact_mod_cast (by push_cast; exact_mod_cast hln : (l : ℚ) < ((k + j : ℕ) : ℚ))
  have hcast : (((k + j) - l : ℕ) : ℚ) = (k : ℚ) + j - l := by
    push_cast [Nat.cast_sub (by omega : l ≤ k + j)]
    ring
  have hcast2 : ((l - k : ℕ) : ℚ) = (l : ℚ) - k := by
    push_cast [Nat.cast_sub hkl]
    ring
  have hNL : (0 : ℚ) < (k : ℚ) + j - l := by linarith
  have hN : (0 : ℚ) < (k : ℚ) + j := by linarith
  rw [sbAt]
  simp only [length_run, hcast, sum_run,
    prefixSum_run_ge a b k j l hkl (by omega), hcast2]
  have hiden : (l : ℚ) + ((k : ℚ) + j - l) = (k : ℚ) + j := by ring
  rw [hiden]
  field_simp
  ring

lemma sbAt_run_peak_pos (a b : ℚ) (k j : ℕ) (hab : a ≠ b) (hk : 1 ≤ k) (hj : 1 ≤ j) :
    0 < sbAt (List.replicate k a ++ List.replicate j b) k := by
  rw [sbAt_run_left a b k j k hk le_rfl hj]
  have hK : (0 : ℚ) < (k : ℚ) := by exact_mod_cast hk
  have hJ : (0 : ℚ) < (j : ℚ) := by exact_mod_cast hj
  have hD : (0 : ℚ) < (a - b) * (a - b) := mul_self_pos.mpr (sub_ne_zero.mpr hab)
  have hnum : (0 : ℚ) < ((j : ℚ) * j * ((a - b) * (a - b))) * k := by positivity
  have hden : (0 : ℚ) < ((k : ℚ) + j) * ((k : ℚ) + j - k) := by
    have : (k : ℚ) + j - k = (j : ℚ) := by ring
    rw [this]
    positivity
  exact div_pos hnum hden

lemma sbAt_run_peak (a b : ℚ) (k j l : ℕ) (hab : a ≠ b) (hk : 1 ≤ k) (hj : 1 ≤ j)
    (h1 : 1 ≤ l) (hln : l < k + j) (hne : l ≠ k) :
    sbAt (List.replicate k a ++ List.replicate j b) l
      < sbAt (List.replicate k a ++ List.replicate j b) k := by
  have hK : (0 : ℚ) < (k : ℚ) := by exact_mod_cast hk
  have hJ : (0 : ℚ) < (j : ℚ) := by exact_mod_cast hj
  have hL : (0 : ℚ) < (l : ℚ) := by exact_mod_cast h1
  have hD : (0 : ℚ) < (a - b) * (a - b) := mul_self_pos.mpr (sub_ne_zero.mpr hab)
  have hN : (0 : ℚ) < (k : ℚ) + j := by linarith
  rcases Nat.lt_or_ge l k with hlk | hkl
  · have hLK : (l : ℚ) < (k : ℚ) := by exact_mod_cast hlk
    have hNL : (0 : ℚ) < (k : ℚ) + j - l := by linarith
    have hNK : (0 : ℚ) < (k : ℚ) + j - k := by linarith
    rw [sbAt_run_left a b k j l h1 (le_of_lt hlk) hj, sbAt_run_left a b k j k hk le_rfl hj,
      div_lt_div_iff₀ (by positivity) (by positivity)]
    have hprod : (0 : ℚ)
        < ((j : ℚ) * j * ((a - b) * (a - b))) * (((k : ℚ) + j) * ((k : ℚ) + j))
            * ((k : ℚ) - l) := by
      have hKLpos : (0 : ℚ) < (k : ℚ) - l := by linarith
      positivity
    nlinarith [hprod]
  · have hklq : (k : ℚ) ≤ (l : ℚ) := by exact_mod_cast hkl
    have hKl : (k : ℚ) < (l : ℚ) := by
      rcases lt_or_eq_of_le hklq with h | h
      · exact h
      · exact absurd (by exact_mod_cast h.symm : l = k) hne
    have hLN : (l : ℚ) < (k : ℚ) + j := by
      have : ((l : ℕ) : ℚ) < ((k + j : ℕ) : ℚ) := by exact_mod_cast hln
      push_cast at this
      linarith
    have hNL : (0 : ℚ) < (k : ℚ) + j - l := by linarith
    rw [sbAt_run_right a b k j l hk hkl hln,
      sbAt_run_right a b k j k hk le_rfl (by omega),
      div_lt_div_iff₀ (by positivity) (by positivity)]
    have hprod : (0 : ℚ)
        < ((k : ℚ) * k * ((a - b) * (a - b))) * (((k : ℚ) + j) * ((k : ℚ) + j))
            * ((l : ℚ) - k) := by
      have hLKpos : (0 : ℚ) < (l : ℚ) - k := by linarith
      positivity
    nlinarith [hprod]

lemma statsBefore_run_mean (a b : ℚ) (k j : ℕ) (hk : 1 ≤ k) :
    (statsBefore (List.replicate k a ++ List.replicate j b) k).mean = a := by
  have hK : ((k : ℚ)) ≠ 0 := Nat.cast_ne_zero.mpr (by omega)
  rw [statsBefore]
  show prefixSum (List.replicate k a ++ List.replicate j b) k / (k : ℚ) = a
  rw [prefixSum_run_le a b k j k le_rfl, mul_comm, mul_div_assoc, div_self hK, mul_one]

lemma statsAfter_run_mean (a b : ℚ) (k j : ℕ) (hj : 1 ≤ j) :
    (statsAfter (List.replicate k a ++ List.replicate j b) k).mean = b := by
  have hJ : ((j : ℚ)) ≠ 0 := Nat.cast_ne_zero.mpr (by omega)
  rw [statsAfter]
  show ((List.replicate k a ++ List.replicate j b).sum
      - prefixSum (List.replicate k a ++ List.replicate j b) k)
    / (((List.replicate k a ++ List.replicate j b).length - k : ℕ) : ℚ) = b
  rw [sum_run, prefixSum_run_le a b k j k le_rfl, length_run]
  have hcast : ((k + j - k : ℕ) : ℚ) = (j : ℚ) := by
    congr 1
    omega
  rw [hcast, show (k : ℚ) * a + (j : ℚ) * b - (k : ℚ) * a = b * (j : ℚ) by ring,
    mul_div_assoc, div_self hJ, mul_one]

/-- C2: on a window made of a run of `a` of length `k` followed by a run
of `b ≠ a` of length `j`, with both runs at least the effective minimum
sample size and with the confidence of the winning split exceeding
`MinConfidence`, `Detector.Check` returns a change point whose index is
`k` (the index of the first element of the after run) and whose
difference is `b - a`. -/
theorem check_step_window_change_at_run_boundary
    (welch : Stats → Stats → ℚ) (d : Detector) (a b : ℚ) (k j : ℕ)
    (hab : a ≠ b) (hk : effectiveMin d ≤ k) (hj : effectiveMin d ≤ j)
    (hconf : d.MinConfidence
      < welch (statsBefore (List.replicate k a ++ List.replicate j b) k)
          (statsAfter (List.replicate k a ++ List.replicate j b) k)) :
    ∃ cp, Detector.Check welch d (List.replicate k a ++ List.replicate j b) = some cp ∧
      cp.Index = k ∧ cp.Difference = b - a := by
  have hm1 := effectiveMin_pos d
  have hk1 : 1 ≤ k := le_trans hm1 hk
  have hj1 : 1 ≤ j := le_trans hm1 hj
  have hlen : (List.replicate k a ++ List.replicate j b).length = k + j :=
    length_run a b k j
  have hkmem : k ∈ candidates (List.replicate k a ++ List.replicate j b).length
      (effectiveMin d) := by
    rw [mem_candidates, hlen]
    omega
  have hkpos : 0 < sbAt (List.replicate k a ++ List.replicate j b) k :=
    sbAt_run_peak_pos a b k j hab hk1 hj1
  rcases splitSearch_spec (List.replicate k a ++ List.replicate j b) (effectiveMin d)
      (effectiveMin_pos d) with ⟨heq, hall⟩ | ⟨l, hl, heq, hsb, hmax, hfirst⟩
  · exact absurd (hall k hkmem) (not_le.mpr hkpos)
  · have hlk : l = k := by
      by_contra hne
      obtain ⟨hb1, hb2⟩ := (mem_candidates _ _ _).mp hl
      rw [hlen] at hb2
      have hpk := sbAt_run_peak a b k j l hab hk1 hj1 (le_trans hm1 hb1) (by omega) hne
      exact absurd (hmax k hkmem) (not_le.mpr hpk)
    subst hlk
    have hbn : 0 < (updAt (List.replicate l a ++ List.replicate j b) l).before.n := by
      show 0 < l
      omega
    have hck : Detector.Check welch d (List.replicate l a ++ List.replicate j b)
        = some ⟨(updAt (List.replicate l a ++ List.replicate j b) l).maxsbIdx,
            (updAt (List.replicate l a ++ List.replicate j b) l).after.Mean
              - (updAt (List.replicate l a ++ List.replicate j b) l).before.Mean,
            welch (updAt (List.replicate l a ++ List.replicate j b) l).before
              (updAt (List.replicate l a ++ List.replicate j b) l).after,
            (updAt (List.replicate l a ++ List.replicate j b) l).before,
            (updAt (List.replicate l a ++ List.replicate j b) l).after⟩ := by
      have hconf2 : d.MinConfidence
          < welch (updAt (List.replicate l a ++ List.replicate j b) l).before
              (updAt (List.replicate l a ++ List.replicate j b) l).after := hconf
      rw [Check_eq, heq, if_pos hbn, if_neg (not_le.mpr hconf2)]
    refine ⟨_, hck, rfl, ?_⟩
    show (updAt (List.replicate l a ++ List.replicate j b) l).after.Mean
        - (updAt (List.replicate l a ++ List.replicate j b) l).before.Mean = b - a
    show (statsAfter (List.replicate l a ++ List.replicate j b) l).mean
        - (statsBefore (List.replicate l a ++ List.replicate j b) l).mean = b - a
    rw [statsAfter_run_mean a b l j hj1, statsBefore_run_mean a b l j hk1]

/-- Closed witness for `check_step_window_change_at_run_boundary` at the
spec example `[1]*10 ++ [2]*10`, `MinSampleSize = 5`,
`MinConfidence = 4/5`. -/
theorem check_step_window_change_at_run_boundary_witness :
    ((1 : ℚ) ≠ 2 ∧ effectiveMin ⟨5, 4 / 5⟩ ≤ 10 ∧
      (Detector.mk 5 (4 / 5)).MinConfidence
        < (fun _ _ => (1 : ℚ))
            (statsBefore (List.replicate 10 (1 : ℚ) ++ List.replicate 10 (2 : ℚ)) 10)
            (statsAfter (List.replicate 10 (1 : ℚ) ++ List.replicate 10 (2 : ℚ)) 10)) ∧
    ∃ cp, Detector.Check (fun _ _ => 1) ⟨5, 4 / 5⟩
        (List.replicate 10 (1 : ℚ) ++ List.replicate 10 (2 : ℚ)) = some cp ∧
      cp.Index = 10 ∧ cp.Difference = 2 - 1 :=
  ⟨⟨by norm_num, by decide, by norm_num⟩,
   check_step_window_change_at_run_boundary (fun _ _ => 1) ⟨5, 4 / 5⟩ 1 2 10 10
     (by norm_num) (by decide) (by decide) (by norm_num)⟩

/-! ### Lemmas about the stream state machine -/

lemma Push_items (welch : Stats → Stats → ℚ) (s : Stream) (x : ℚ) :
    (Stream.Push welch s x).1.items = s.items + 1 := by
  rw [Stream.Push]
  split
  · rfl
  · rfl

lemma Push_blockSize (welch : Stats → Stats → ℚ) (s : Stream) (x : ℚ) :
    (Stream.Push welch s x).1.blockSize = s.blockSize := by
  rw [Stream.Push]
  split
  · rfl
  · rfl

lemma Push_windowSize (welch : Stats → Stats → ℚ) (s : Stream) (x : ℚ) :
    (Stream.Push welch s x).1.windowSize = s.windowSize := by
  rw [Stream.Push]
  split
  · rfl
  · rfl

lemma Push_bufidx (welch : Stats → Stats → ℚ) (s : Stream) (x : ℚ) :
    (Stream.Push welch s x).1.bufidx
      = if s.bufidx + 1 < s.blockSize then s.bufidx + 1 else 0 := by
  rw [Stream.Push]
  split
  · rfl
  · rfl

lemma Push_snd (welch : Stats → Stats → ℚ) (s : Stream) (x : ℚ) :
    (Stream.Push welch s x).2
      = if s.bufidx + 1 < s.blockSize then none
        else if s.items + 1 < s.windowSize then none
        else s.detector.Check welch (s.data.drop s.blockSize ++ s.buffer.set s.bufidx x) := by
  rw [Stream.Push]
  split
  · rfl
  · rfl

/-- Any push that leaves the block buffer not yet full returns no change
point, and does so without consulting the detector (the whole push result
is independent of the significance test). -/
lemma Push_mid_block (welch welch' : Stats → Stats → ℚ) (s : Stream) (x : ℚ)
    (h : s.bufidx + 1 < s.blockSize) :
    (Stream.Push welch s x).2 = none ∧ Stream.Push welch s x = Stream.Push welch' s x := by
  constructor
  · rw [Push_snd, if_pos h]
  · rw [Stream.Push, Stream.Push]
    simp only [if_pos h]

/-- Stepping the block-buffer index keeps it equal to `items % blockSize`. -/
lemma Push_bufidx_mod (welch : Stats → Stats → ℚ) (s : Stream) (x : ℚ)
    (hB : 0 < s.blockSize) (hinv : s.bufidx = s.items % s.blockSize) :
    (Stream.Push welch s x).1.bufidx
      = (Stream.Push welch s x).1.items % (Stream.Push welch s x).1.blockSize := by
  rw [Push_bufidx, Push_items, Push_blockSize, hinv]
  by_cases hcond : s.items % s.blockSize + 1 < s.blockSize
  · rw [if_pos hcond, Nat.add_mod, Nat.mod_eq_of_lt (show 1 < s.blockSize by omega),
      Nat.mod_eq_of_lt hcond]
  · rw [if_neg hcond]
    by_cases hB1 : s.blockSize = 1
    · rw [hB1, Nat.mod_one]
    · have hlt := Nat.mod_lt s.items hB
      have hlast : s.items % s.blockSize = s.blockSize - 1 := by omega
      rw [Nat.add_mod, hlast, Nat.mod_eq_of_lt (show 1 < s.blockSize by omega),
        show s.blockSize - 1 + 1 = s.blockSize by omega, Nat.mod_self]

/-- A full block boundary: when the incoming push fills the block buffer,
the new item count is a multiple of the block size. -/
lemma Push_full_mod (s : Stream) (hB : 0 < s.blockSize)
    (hinv : s.bufidx = s.items % s.blockSize) (hcond : ¬s.bufidx + 1 < s.blockSize) :
    (s.items + 1) % s.blockSize = 0 := by
  rw [hinv] at hcond
  by_cases hB1 : s.blockSize = 1
  · rw [hB1, Nat.mod_one]
  · have hlt := Nat.mod_lt s.items hB
    have hlast : s.items % s.blockSize = s.blockSize - 1 := by omega
    rw [Nat.add_mod, hlast, Nat.mod_eq_of_lt (show 1 < s.blockSize by omega),
      show s.blockSize - 1 + 1 = s.blockSize by omega, Nat.mod_self]

lemma pushResults_cons (welch : Stats → Stats → ℚ) (s : Stream) (x : ℚ) (xs : List ℚ) :
    pushResults welch s (x :: xs)
      = (s.Push welch x).2 :: pushResults welch (s.Push welch x).1 xs := rfl

/-- Invariant transport: any non-`none` entry of `pushResults` occurs at a
push index that is at least `windowSize` and a multiple of `blockSize`
(counting pushes from 1, relative to the items already seen). -/
lemma pushResults_spec (welch : Stats → Stats → ℚ) :
    ∀ (xs : List ℚ) (s : Stream), 0 < s.blockSize → s.bufidx = s.items % s.blockSize →
      ∀ i, i < xs.length → (pushResults welch s xs).getD i none ≠ none →
        s.windowSize ≤ s.items + i + 1 ∧ s.blockSize ∣ (s.items + i + 1) := by
  intro xs
  induction xs with
  | nil =>
      intro s hB hinv i hi
      simp at hi
  | cons x xs ih =>
      intro s hB hinv i hi hne
      cases i with
      | zero =>
          rw [pushResults_cons, List.getD_cons_zero, Push_snd] at hne
          by_cases hcond : s.bufidx + 1 < s.blockSize
          · rw [if_pos hcond] at hne
            exact absurd rfl hne
          · rw [if_neg hcond] at hne
            constructor
            · by_contra hW
              rw [if_pos (by omega)] at hne
              exact hne rfl
            · exact Nat.dvd_iff_mod_eq_zero.mpr (Push_full_mod s hB hinv hcond)
      | succ i =>
          rw [pushResults_cons, List.getD_cons_succ] at hne
          have hres := ih (Stream.Push welch s x).1
            (by rw [Push_blockSize]; exact hB)
            (Push_bufidx_mod welch s x hB hinv) i (by simpa using hi) hne
          rw [Push_windowSize, Push_items, Push_blockSize] at hres
          constructor
          · have := hres.1
            omega
          · have := hres.2
            have hs : s.items + 1 + i + 1 = s.items + (i + 1) + 1 := by omega
            rwa [hs] at this

/-- C6: for a freshly constructed stream with positive block size, each of
the first `windowSize - 1` pushes returns no change point; two distinct
pushes that both return change points are at least `blockSize` apart (so
at most one change point per `blockSize` consecutive pushes); and any
push that leaves the block buffer not yet full returns no change point
without invoking the detector. -/
theorem stream_push_rate (welch : Stats → Stats → ℚ) (W m B : ℕ) (c : ℚ)
    (xs : List ℚ) (hB : 0 < B) :
    (∀ i, i < xs.length → i + 1 < W →
      (pushResults welch (NewStream W m B c) xs).getD i none = none) ∧
    (∀ i j, i < j → j < xs.length →
      (pushResults welch (NewStream W m B c) xs).getD i none ≠ none →
      (pushResults welch (NewStream W m B c) xs).getD j none ≠ none →
      i + B ≤ j) ∧
    (∀ (s : Stream) (x : ℚ), s.bufidx + 1 < s.blockSize →
      (Stream.Push welch s x).2 = none ∧
      ∀ welch' : Stats → Stats → ℚ, Stream.Push welch s x = Stream.Push welch' s x) := by
  have hbase : (NewStream W m B c).blockSize = B := rfl
  have hinv : (NewStream W m B c).bufidx
      = (NewStream W m B c).items % (NewStream W m B c).blockSize := by
    exact (Nat.zero_mod B).symm
  have hspec := pushResults_spec welch xs (NewStream W m B c) (by rwa [hbase]) hinv
  refine ⟨?_, ?_, ?_⟩
  · intro i hi hiW
    by_contra hne
    have := hspec i hi hne
    simp only [hbase] at this
    have hW : W ≤ 0 + i + 1 := this.1
    omega
  · intro i j hij hj hnei hnej
    have hdi := (hspec i (by omega) hnei).2
    have hdj := (hspec j hj hnej).2
    simp only [hbase] at hdi hdj
    have hzero : (NewStream W m B c).items = 0 := rfl
    rw [hzero] at hdi hdj
    have hdiff : B ∣ (0 + j + 1) - (0 + i + 1) := Nat.dvd_sub' hdj hdi
    have hpos : 0 < (0 + j + 1) - (0 + i + 1) := by omega
    have := Nat.le_of_dvd hpos hdiff
    omega
  · intro s x h
    exact ⟨(Push_mid_block welch welch s x h).1,
      fun welch' => (Push_mid_block welch welch' s x h).2⟩

/-- Closed witness for `stream_push_rate` with window size 2 and block
size 1. -/
theorem stream_push_rate_witness :
    0 < 1 ∧
    ((∀ i, i < ([(5 : ℚ), 6]).length → i + 1 < 2 →
      (pushResults (fun _ _ => 0) (NewStream 2 1 1 0) [(5 : ℚ), 6]).getD i none = none) ∧
    (∀ i j, i < j → j < ([(5 : ℚ), 6]).length →
      (pushResults (fun _ _ => 0) (NewStream 2 1 1 0) [(5 : ℚ), 6]).getD i none ≠ none →
      (pushResults (fun _ _ => 0) (NewStream 2 1 1 0) [(5 : ℚ), 6]).getD j none ≠ none →
      i + 1 ≤ j) ∧
    (∀ (s : Stream) (x : ℚ), s.bufidx + 1 < s.blockSize →
      (Stream.Push (fun _ _ => 0) s x).2 = none ∧
      ∀ welch' : Stats → Stats → ℚ,
        Stream.Push (fun _ _ => 0) s x = Stream.Push welch' s x)) :=
  ⟨Nat.one_pos, stream_push_rate (fun _ _ => 0) 2 1 1 0 [(5 : ℚ), 6] Nat.one_pos⟩

/-- C7 counterexample: `NewStream` performs no validation at construction
time: with `blockSize = 5 > windowSize = 2` the constructor still returns
a fully-formed stream (its return type has no failure case), whereas the
specification-following checked constructor rejects the same sizes. -/
theorem newStream_no_validation_counterexample :
    NewStreamCheckedSpec 2 0 5 0 = none ∧
    NewStream 2 0 5 (0 : ℚ)
      = ⟨2, 5, List.replicate 2 0, 0, List.replicate 5 0, 0, ⟨0, 0⟩⟩ :=
  ⟨rfl, rfl⟩

/-- C7 amended: `NewStream` never fails: for every combination of
construction parameters (including `blockSize > windowSize` and zero
sizes) it returns a fully-populated stream carrying exactly the given
configuration; no structural misconfiguration is surfaced at
construction time. -/
theorem newStream_total_no_validation (W m B : ℕ) (c : ℚ) :
    (NewStream W m B c).windowSize = W ∧ (NewStream W m B c).blockSize = B ∧
    (NewStream W m B c).data = List.replicate W 0 ∧
    (NewStream W m B c).items = 0 ∧
    (NewStream W m B c).buffer = List.replicate B 0 ∧
    (NewStream W m B c).bufidx = 0 ∧
    (NewStream W m B c).detector = ⟨m, c⟩ :=
  ⟨rfl, rfl, rfl, rfl, rfl, rfl, rfl⟩

/-- C8: when the winning split leaves either segment with fewer than 2
samples, the guarded significance test (modelled from the spec for the
external `onlinestats.Welch`) yields confidence 0, so `Detector.Check`
returns no change point (never a fault), whatever the underlying test
`core` would report. -/
theorem check_degenerate_segment_none (core : Stats → Stats → ℚ) (d : Detector)
    (w : List ℚ) (h0 : 0 ≤ d.MinConfidence)
    (hdeg : (splitSearch w (effectiveMin d)).before.n < 2
      ∨ (splitSearch w (effectiveMin d)).after.n < 2) :
    Detector.Check (welchGuarded core) d w = none := by
  rw [Check_eq]
  have hconf : (if 0 < (splitSearch w (effectiveMin d)).before.n
      then welchGuarded core (splitSearch w (effectiveMin d)).before
        (splitSearch w (effectiveMin d)).after
      else 0) = 0 := by
    split
    · rw [welchGuarded, if_pos hdeg]
    · rfl
  rw [hconf, if_pos h0]

/-- On the window `[0, 5, 5]` with minimum sample size 1 the winning
split is the earliest strict maximizer, length 1 (scatter `50/3`, versus
`25/6` at length 2). -/
lemma splitSearch_witness_eval :
    splitSearch [(0 : ℚ), 5, 5] 1 = updAt [(0 : ℚ), 5, 5] 1 := by
  have h1mem : (1 : ℕ) ∈ candidates ([(0 : ℚ), 5, 5]).length 1 := by decide
  rcases splitSearch_spec [(0 : ℚ), 5, 5] 1 le_rfl with
    ⟨heq, hall⟩ | ⟨l, hl, heq, hsb, hmax, hfirst⟩
  · exfalso
    have hle := hall 1 h1mem
    have hpos : 0 < sbAt [(0 : ℚ), 5, 5] 1 := by norm_num [sbAt, prefixSum]
    linarith
  · have hl12 : l = 1 ∨ l = 2 := by
      have hb := (mem_candidates _ _ _).mp hl
      simp only [List.length_cons, List.length_nil] at hb
      omega
    rcases hl12 with h1 | h2
    · rw [h1] at heq
      exact heq
    · exfalso
      rw [h2] at hfirst
      have hlt := hfirst 1 h1mem (by omega)
      have hnlt : ¬sbAt [(0 : ℚ), 5, 5] 1 < sbAt [(0 : ℚ), 5, 5] 2 := by
        norm_num [sbAt, prefixSum]
      exact hnlt hlt

/-- Closed witness for `check_degenerate_segment_none` at the window
`[0, 5, 5]` with `MinSampleSize = 1`: the winning split has a before
segment of one sample, and the check returns nothing even though the
underlying test would report confidence 1. -/
theorem check_degenerate_segment_none_witness :
    ((0 : ℚ) ≤ (Detector.mk 1 (1 / 2)).MinConfidence ∧
      ((splitSearch [(0 : ℚ), 5, 5] (effectiveMin ⟨1, 1 / 2⟩)).before.n < 2
        ∨ (splitSearch [(0 : ℚ), 5, 5] (effectiveMin ⟨1, 1 / 2⟩)).after.n < 2)) ∧
    Detector.Check (welchGuarded fun _ _ => 1) ⟨1, 1 / 2⟩ [(0 : ℚ), 5, 5] = none :=
  ⟨⟨by norm_num,
    by
      rw [show effectiveMin ⟨1, 1 / 2⟩ = 1 from rfl, splitSearch_witness_eval]
      exact Or.inl (by decide)⟩,
   check_degenerate_segment_none (fun _ _ => 1) ⟨1, 1 / 2⟩ [(0 : ℚ), 5, 5]
     (by norm_num)
     (by
       rw [show effectiveMin ⟨1, 1 / 2⟩ = 1 from rfl, splitSearch_witness_eval]
       exact Or.inl (by decide))⟩

/-- C10: `Detector.Check` never writes to the window passed to it: the
window contents after the call (threaded through the accumulation loop,
the only code that writes memory) are exactly the input window, and the
returned value is the ordinary check result. -/
theorem check_does_not_write_window (welch : Stats → Stats → ℚ) (d : Detector)
    (w : List ℚ) :
    (Detector.CheckFull welch d w).2 = w ∧
    (Detector.CheckFull welch d w).1 = Detector.Check welch d w :=
  ⟨accum_window w, rfl⟩

/-- C9: `Detector.Check` is deterministic and pure: running it a second
time on the window state left behind by the first call (which it never
mutates) produces the identical result and window. -/
theorem check_idempotent (welch : Stats → Stats → ℚ) (d : Detector) (w : List ℚ) :
    Detector.CheckFull welch d (Detector.CheckFull welch d w).2
      = Detector.CheckFull welch d w := by
  have h2 : (Detector.CheckFull welch d w).2 = w := accum_window w
  rw [h2]

end Change
